import Mathlib

/-!
Verification of the midi2swstruct core against its specification.

The development shallowly embeds the Rust sources:
  * `option_array` / `optionarray.rs`: `OptionArray<u8, N>` becomes a list of
    `Option Nat` slots (slot `i` present iff the list holds `some v` at `i`).
  * `timebytesequence.rs`: `TimeByteMultiSequence<N>`'s `BTreeMap<usize, OptionArray<u8,N>>`
    becomes an association list ordered by strictly increasing time key
    (`SortedKeys`); iteration order of the embedding is list order, matching the
    BTreeMap's ascending key order.
  * `lib.rs`: `data_to_functions` and the block-building part of
    `generate_music_player`.
Byte values are embedded as `Nat` (all stored values come from `u8`; the
claims under study never overflow them).
-/

/-- Slots of `OptionArray<u8, N>`: slot `i` is live iff the list holds `some v`
at position `i`.  Lists are used with length `N`. -/
abbrev Arr : Type := List (Option Nat)

/-- `OptionArray::new()`: all `N` slots absent. -/
def arrNew (N : Nat) : Arr := List.replicate N none

/-- `OptionArray::get(i)`: the slot value when present (out-of-range reads as
absent; the source asserts `i < N`, theorems carry that bound). -/
def arrGet (a : Arr) (i : Nat) : Option Nat := a.getD i none

/-- `OptionArray::set(i, v)`: mark present and store `v`. -/
def arrSet (a : Arr) (i v : Nat) : Arr := a.set i (some v)

/-- `OptionArray::clear(i)`: mark absent. -/
def arrClear (a : Arr) (i : Nat) : Arr := a.set i none

/-- Whether some slot of the snapshot is present (used for the
"no empty snapshots" invariant of the spec). -/
def arrHasPresent (a : Arr) : Bool := a.any (fun o => o.isSome)

/-- `TimeByteMultiSequence<N>`: the `BTreeMap<usize, OptionArray<u8,N>>` as an
association list in ascending key order. -/
abbrev TBMS : Type := List (Nat × Arr)

/-- The BTreeMap ordering invariant: strictly increasing time keys. -/
def SortedKeys (m : TBMS) : Prop := List.Pairwise (fun p q => p.1 < q.1) m

instance : DecidablePred SortedKeys := fun m =>
  List.instDecidablePairwise m

/-- `BTreeMap::get(&time)` on the association list. -/
def lookupTB (m : TBMS) (t : Nat) : Option Arr :=
  (m.find? (fun p => p.1 == t)).map Prod.snd

/-- `TimeByteMultiSequence::set(time, index, value)`:
`map.entry(time).or_insert_with(OptionArray::new)` followed by
`entry.set(index, value)`, as an ordered insert. -/
def msSet (N : Nat) (m : TBMS) (t i v : Nat) : TBMS :=
  match m with
  | [] => [(t, arrSet (arrNew N) i v)]
  | (t', a) :: rest =>
    if t < t' then (t, arrSet (arrNew N) i v) :: (t', a) :: rest
    else if t = t' then (t', arrSet a i v) :: rest
    else (t', a) :: msSet N rest t i v

/-- `self.map.range(..=time).rev().find_map(|(_, arr)| arr.get(index))`
(shared by `get` and `floor_typed`): the filtered prefix in reverse. -/
def msGetOpt (m : TBMS) (t i : Nat) : Option Nat :=
  ((m.filter (fun p => p.1 ≤ t)).reverse).findSome? (fun p => arrGet p.2 i)

/-- `TimeByteMultiSequence::get(time, index)` (the per-channel floor query):
value at the greatest key `≤ time` where channel `index` is present, else 0. -/
def msGet (m : TBMS) (t i : Nat) : Nat := (msGetOpt m t i).getD 0

/-- `TimeByteMultiSequence::get_all(time)`: start from `[0u8; N]` and walk all
snapshots at keys `≤ time` in ascending order, overwriting channel `i`
whenever the snapshot has it present. -/
def msGetAll (N : Nat) (m : TBMS) (t : Nat) : List Nat :=
  (m.filter (fun p => p.1 ≤ t)).foldl
    (fun result p => (List.range N).map (fun i => (arrGet p.2 i).getD (result.getD i 0)))
    (List.replicate N 0)

/-- `MultiSequenceLike::floor(time)` from `sequence/src/multisequence.rs`
(lines 80-93): read only the single greatest snapshot at or before `time`,
defaulting every channel that snapshot does not hold. -/
def msFloorVec (N : Nat) (m : TBMS) (t : Nat) : List Nat :=
  match (m.filter (fun p => p.1 ≤ t)).getLast? with
  | none => List.replicate N 0
  | some p => (List.range N).map (fun i => (arrGet p.2 i).getD 0)

/-- One step of `TimeByteMultiSequence::optimize`: at one time key, clear every
channel whose `arr.get(i).unwrap_or(0)` equals `last_values[i]`, otherwise
record the value into `last_values`.  The source collects `keys_to_clear`
first and clears afterwards; since the decision at a key depends only on
earlier keys, clearing in the same pass is the identical result. -/
def msOptimizeGo (N : Nat) : List Nat → TBMS → TBMS
  | _, [] => []
  | lastValues, (t, arr) :: rest =>
    let cleared := (List.range N).foldl
      (fun a i => if (arrGet arr i).getD 0 = lastValues.getD i 0 then arrClear a i else a)
      arr
    let lastValues' := (List.range N).map
      (fun i =>
        let value := (arrGet arr i).getD 0
        if value = lastValues.getD i 0 then lastValues.getD i 0 else value)
    (t, cleared) :: msOptimizeGo N lastValues' rest

/-- `TimeByteMultiSequence::optimize()`: single left-to-right pass with
`last_values = [0u8; N]` initially.  Note the key itself always stays in the
map, even when every channel at it is cleared. -/
def msOptimize (N : Nat) (m : TBMS) : TBMS := msOptimizeGo N (List.replicate N 0) m

/-- `sort_unstable` + `dedup` over time keys, realised directly as repeated
sorted insertion that skips duplicates (the net effect of the source's
sort-then-adjacent-dedup: a strictly ascending list of the distinct keys). -/
def insertKey (x : Nat) : List Nat → List Nat
  | [] => [x]
  | y :: ys => if x < y then x :: y :: ys else if x = y then y :: ys else y :: insertKey x ys

/-- All distinct keys of both operands in ascending order (the `all_times`
vector of the bitwise operators). -/
def sortDedupKeys (l : List Nat) : List Nat := l.foldr insertKey []

/-- Per-channel operand values at one time key: explicit value at the key when
present, else the carried `last_*` value (`.and_then(|a| a.get(i)).unwrap_or(last[i])`). -/
def valsOf (N : Nat) (arrOpt : Option Arr) (last : List Nat) : List Nat :=
  (List.range N).map (fun i => ((arrOpt.bind (fun a => arrGet a i)).getD (last.getD i 0)))

/-- Loop body of `impl_bitwise_for_multi_sequence`: for every time key insert a
fresh snapshot into the result, set channel `i` to `val_self op val_rhs`
whenever that is nonzero, and carry the operand values as the new `last`
vectors.  The source updates `arr_result` and `last_*[i]` channel by channel;
each channel is touched exactly once, so the loop splits into the two value
vectors and the array build. -/
def msBitopGo (N : Nat) (op : Nat → Nat → Nat) (a b : TBMS) :
    List Nat → List Nat → List Nat → TBMS
  | _, _, [] => []
  | lastSelf, lastRhs, t :: ts =>
    let arrSelf := lookupTB a t
    let arrRhs := lookupTB b t
    let valSelf := valsOf N arrSelf lastSelf
    let valRhs := valsOf N arrRhs lastRhs
    let arrResult := (List.range N).foldl
      (fun arr i =>
        let value := op (valSelf.getD i 0) (valRhs.getD i 0)
        if value ≠ 0 then arrSet arr i value else arr)
      (arrNew N)
    (t, arrResult) :: msBitopGo N op a b valSelf valRhs ts

/-- `impl_bitwise_for_multi_sequence!(op)`: iterate the sorted deduplicated
union of both operands' keys, starting from all-zero `last` vectors. -/
def msBitop (N : Nat) (op : Nat → Nat → Nat) (a b : TBMS) : TBMS :=
  msBitopGo N op a b (List.replicate N 0) (List.replicate N 0)
    (sortDedupKeys (a.map Prod.fst ++ b.map Prod.fst))

/-- Invariant from the spec's data model: every time key present in the map has
at least one present slot in its snapshot. -/
def NonEmptySnapshots (m : TBMS) : Prop := ∀ p ∈ m, arrHasPresent p.2 = true

instance : DecidablePred NonEmptySnapshots := fun m =>
  List.decidableBAll _ m

/-- The byte-gathering closure of `TORMultiSequenceView::floor_typed`
(`multisequenceview.rs` 82-90): collect all `size_of::<T>()` consecutive bytes
from one snapshot, or fail (`?`) as soon as any one is absent. -/
def collectBytes (arr : Arr) (start s : Nat) : Option (List Nat) :=
  (List.range s).mapM (fun j => arrGet arr (start + j))

/-- `TORMultiSequenceView::floor_typed(time, index)` before `unwrap_or_default`:
walk keys `≤ time` from the greatest down and return the first snapshot that
holds all `s` constituent bytes of element `index`.  The value is kept as its
byte list (the source `transmute_copy`s these bytes into `T`), which keeps the
embedding independent of byte order. -/
def floorTypedOpt (m : TBMS) (s k t : Nat) : Option (List Nat) :=
  ((m.filter (fun p => p.1 ≤ t)).reverse).findSome? (fun p => collectBytes p.2 (k * s) s)

/-- `floor_typed` with its `unwrap_or_default` (the all-zero value). -/
def floorTyped (m : TBMS) (s k t : Nat) : List Nat :=
  (floorTypedOpt m s k t).getD (List.replicate s 0)

/-- Modelled from the spec: the "per-byte floor-then-assemble" reading of
`floor_typed` ("floor query substitutes each byte's own historical floor"),
written for comparison against the source's `floorTyped`. -/
def floorTypedPerByte (m : TBMS) (s k t : Nat) : List Nat :=
  (List.range s).map (fun j => msGet m t (k * s + j))

/-- One emitted function of `data_to_functions`: the delta buckets
(`diffs: HashMap<i64, Vec<u32>>`, embedded as an association list in first-seen
order — bucket contents and counts do not depend on the hash order) plus the
trailing corrective term `-prev_data * step(time, x)`. -/
structure EncFunc where
  buckets : List (Int × List Nat)
  closeCoeff : Nat
  closeTime : Nat
deriving DecidableEq

/-- `diffs.entry(diff).and_modify(|e| e.push(time)).or_insert(vec![time])`. -/
def bucketAdd : List (Int × List Nat) → Int → Nat → List (Int × List Nat)
  | [], d, t => [(d, [t])]
  | (d', ts) :: rest, d, t =>
    if d = d' then (d', ts ++ [t]) :: rest
    else (d', ts) :: bucketAdd rest d t

/-- Loop of `data_to_functions` (`lib.rs` 30-65): `n` is the running sample
index, `i` the per-function event counter, `prevData` the carried state and
`diffs` the buckets.  Each iteration first increments `i`, closes the current
function when `i > max_events_per_func` or the current sample is the last one
(resetting `i`, `prev_data` and `diffs`), and then admits the current sample
into the (possibly fresh) buckets. -/
def d2fGo (maxEvents total : Nat) :
    Nat → Nat → Nat → List (Int × List Nat) → List (Nat × Nat) → List EncFunc
  | _, _, _, _, [] => []
  | n, i, prevData, diffs, (time, data) :: rest =>
    if maxEvents < i + 1 ∨ n + 1 = total then
      ⟨diffs, prevData, time⟩ ::
        d2fGo maxEvents total (n + 1) 0 data (bucketAdd [] ((data : Int) - 0) time) rest
    else
      d2fGo maxEvents total (n + 1) (i + 1) data
        (bucketAdd diffs ((data : Int) - (prevData : Int)) time) rest

/-- `data_to_functions(data_changes, max_events_per_func)`. -/
def dataToFunctions (changes : List (Nat × Nat)) (maxEvents : Nat) : List EncFunc :=
  d2fGo maxEvents changes.length 0 0 0 [] changes

/-- Total bucket term count of one emitted function (number of `(delta, time)`
occurrences summed over all delta buckets; the closing term not counted). -/
def termCount (f : EncFunc) : Nat := (f.buckets.map (fun b => b.2.length)).sum

/-- `step(t, x)` of the emitted expression grammar: 1 once `x` has reached `t`. -/
def stepAt (t x : Nat) : Int := if t ≤ x then 1 else 0

/-- Value of one emitted function at `x`: every bucket contributes
`delta * (step(t1,x) + step(t2,x) + ...)`, then the corrective term
`- prev_data * step(close_time, x)`. -/
def evalFunc (f : EncFunc) (x : Nat) : Int :=
  (f.buckets.map (fun b => b.1 * (b.2.map (fun t => stepAt t x)).sum)).sum
    - (f.closeCoeff : Int) * stepAt f.closeTime x

/-- Sum of all emitted functions at `x` (the piecewise accumulator of the spec). -/
def evalFuncs (fs : List EncFunc) (x : Nat) : Int :=
  (fs.map (fun f => evalFunc f x)).sum

/-- The MIDI messages `generate_music_player` inspects (`lib.rs` 101-110). -/
inductive NoteMsg where
  | noteOn (key vel : Nat)
  | noteOff (key : Nat)
  | other
deriving DecidableEq

/-- The `match message` of `generate_music_player`: `NoteOn` is on exactly when
`vel > min_velocity`; `NoteOff` is off; anything else is skipped. -/
def noteEventOf (minVelocity : Nat) (msg : NoteMsg) : Option (Nat × Bool) :=
  match msg with
  | .noteOn key vel => some (key, decide (minVelocity < vel))
  | .noteOff key => some (key, false)
  | .other => none

/-- Event ingestion step of `generate_music_player`: skip keys outside
`[min_pitch, max_pitch]`, otherwise push `(abs_time, key, state)`. -/
def recordNoteEvent (minPitch maxPitch minVelocity : Nat)
    (noteEvents : List (Nat × Nat × Bool)) (absTime : Nat) (msg : NoteMsg) :
    List (Nat × Nat × Bool) :=
  match noteEventOf minVelocity msg with
  | none => noteEvents
  | some (key, state) =>
    if key < minPitch ∨ maxPitch < key then noteEvents
    else noteEvents ++ [(absTime, key, state)]

/-- A node of the emitted graph: `sw_structure_io::Block`, reduced to the block
id and the fan-out list (`connections`); the expression payloads, names and
positions do not participate in index allocation or bounds. -/
structure Block where
  id : Nat
  connections : List Nat
deriving DecidableEq

/-- `usize -> u16` conversion `(blocks.len() - 1).try_into()?`: an explicit
error (`Error::FromInt`) instead of wrapping. -/
def tryIntoU16 (n : Nat) : Except Unit Nat :=
  if n < 65536 then Except.ok n else Except.error ()

/-- `blocks.push(b)` followed by `let idx: u16 = (blocks.len() - 1).try_into()?`. -/
def pushChecked (blocks : List Block) (b : Block) : Except Unit (List Block × Nat) :=
  let blocks' := blocks ++ [b]
  match tryIntoU16 (blocks'.length - 1) with
  | Except.ok idx => Except.ok (blocks', idx)
  | Except.error e => Except.error e

/-- `if let Some(b) = blocks.get_mut(j) { b.connections.push(target) }`. -/
def pushConn (blocks : List Block) (j target : Nat) : List Block :=
  match blocks.get? j with
  | some b => blocks.set j { b with connections := b.connections ++ [target] }
  | none => blocks

/-- The tone-generator loop of one channel (`lib.rs` 270-290): for
`n in 0..notes_per_value`, when `c*notes_per_value + n < used_keys_count` push
a tone generator block and wire the decoder to it. -/
def addToneGens (usedKeysCount decoderIndex cBase : Nat) :
    List Nat → List Block → Except Unit (List Block)
  | [], blocks => Except.ok blocks
  | n :: ns, blocks =>
    if cBase + n < usedKeysCount then
      match pushChecked blocks ⟨125, []⟩ with
      | Except.error e => Except.error e
      | Except.ok (blocks', toneGenIndex) =>
        addToneGens usedKeysCount decoderIndex cBase ns
          (pushConn blocks' decoderIndex toneGenIndex)
    else
      addToneGens usedKeysCount decoderIndex cBase ns blocks

/-- The data-function loop (`lib.rs` 294-314 and 319-339): one math block per
emitted function, wired into `target` (the channel's decoder input, or block 3
for tempo), and appended to block 4's fan-out. -/
def addDataBlocks (target : Nat) : List EncFunc → List Block → Except Unit (List Block)
  | [], blocks => Except.ok blocks
  | _f :: fs, blocks =>
    match pushChecked blocks ⟨129, [target]⟩ with
    | Except.error e => Except.error e
    | Except.ok (blocks', dataBlockIndex) =>
      addDataBlocks target fs (pushConn blocks' 4 dataBlockIndex)

/-- One channel of the generation loop (`lib.rs` 248-315): decoder block,
decoder-input OR block, tone generators, then the channel's data blocks. -/
def addChannel (notesPerValue usedKeysCount maxEvents : Nat)
    (changes : List (Nat × Nat)) (c : Nat) (blocks : List Block) :
    Except Unit (List Block) :=
  match pushChecked blocks ⟨129, []⟩ with
  | Except.error e => Except.error e
  | Except.ok (blocks1, decoderIndex) =>
    match pushChecked blocks1 ⟨78, [decoderIndex]⟩ with
    | Except.error e => Except.error e
    | Except.ok (blocks2, decoderInputIndex) =>
      match addToneGens usedKeysCount decoderIndex (c * notesPerValue)
          (List.range notesPerValue) blocks2 with
      | Except.error e => Except.error e
      | Except.ok blocks3 =>
        addDataBlocks decoderInputIndex (dataToFunctions changes maxEvents) blocks3

/-- The `for c in 0..channels_count` loop. -/
def addChannels (notesPerValue usedKeysCount maxEvents : Nat)
    (dataChanges : List (List (Nat × Nat))) :
    List Nat → List Block → Except Unit (List Block)
  | [], blocks => Except.ok blocks
  | c :: cs, blocks =>
    match addChannel notesPerValue usedKeysCount maxEvents (dataChanges.getD c []) c blocks with
    | Except.error e => Except.error e
    | Except.ok blocks' => addChannels notesPerValue usedKeysCount maxEvents dataChanges cs blocks'

/-- The five always-present blocks (`lib.rs` 197-245): main math block (wired
to 2 and 4), switch (wired to 0), and the three OR blocks. -/
def prologue : List Block :=
  [⟨129, [2, 4]⟩, ⟨9, [0]⟩, ⟨78, [0]⟩, ⟨78, [0]⟩, ⟨78, []⟩]

/-- The block-allocation part of `generate_music_player`, from the prologue on:
`channels_count = used_keys_count.checked_sub(1).unwrap_or(0) / notes_per_value + 1`
(truncating `Nat` subtraction is exactly `checked_sub(1).unwrap_or(0)`), then
the channel loop, then the tempo data blocks wired into block 3. -/
def generateBlocks (notesPerValue usedKeysCount maxEvents : Nat)
    (dataChanges : List (List (Nat × Nat))) (tempoEvents : List (Nat × Nat)) :
    Except Unit (List Block) :=
  match addChannels notesPerValue usedKeysCount maxEvents dataChanges
      (List.range ((usedKeysCount - 1) / notesPerValue + 1)) prologue with
  | Except.error e => Except.error e
  | Except.ok blocks => addDataBlocks 3 (dataToFunctions tempoEvents maxEvents) blocks

/-- The 16-bit index-space bound the spec demands of every emitted graph. -/
def GoodBlocks (blocks : List Block) : Prop :=
  blocks.length ≤ 65536 ∧ ∀ b ∈ blocks, ∀ c ∈ b.connections, c < 65536

/-! ## Concrete stores used by the claim theorems -/

/-- Store over `N = 2` channels: channel 0 holds 5 from `t = 0` and is
explicitly reset to 0 at `t = 10`; channel 1 gets 1 at `t = 5` (so the key
`t = 5` has no channel-0 entry). -/
def exC1 : TBMS := [(0, [some 5, none]), (5, [none, some 1]), (10, [some 0, none])]

/-- The spec scenario store: `N = 8`, insert `(t=0,c=3,1)`, `(t=5,c=3,1)`,
`(t=10,c=3,0)` through `set`. -/
def exC9 : TBMS := msSet 8 (msSet 8 (msSet 8 [] 0 3 1) 5 3 1) 10 3 0

/-- Two byte channels forming one 2-byte typed element: both bytes present at
`t = 0`, only byte 0 rewritten at `t = 5`. -/
def exC2 : TBMS := [(0, [some 1, some 2]), (5, [some 3, none])]

/-- One channel: value 5 at `t = 0`, explicit return to 0 at `t = 5`. -/
def exC5 : TBMS := [(0, [some 5]), (5, [some 0])]

/-- One channel with the single entry 5 at `t = 0`. -/
def exC6 : TBMS := [(0, [some 5])]

/-- Two channels written at different keys: channel 0 at `t = 0`, channel 1 at
`t = 5`. -/
def exC7 : TBMS := [(0, [some 5, none]), (5, [none, some 7])]

/-- C1: the claim says `optimize()` never changes any floor result.  The code
violates this: `optimize` reads an absent channel as value 0
(`arr.get(i).unwrap_or(0)`), so at `t = 5` (where channel 0 has no entry) the
tracked held value of channel 0 falls from 5 to 0, and the genuine transition
to 0 at `t = 10` is then cleared as "redundant".  The floor of channel 0 at
`t = 10` changes from 0 (before) to 5 (after). -/
theorem optimize_changes_floor_on_missing_channel :
    SortedKeys exC1 ∧ msGet exC1 10 0 = 0 ∧ msGet (msOptimize 2 exC1) 10 0 = 5 := by
  decide

/-- C9: the spec scenario.  After `optimize()` the channel-3 entry at `t = 5`
is cleared while the entries at `t = 0` (value 1) and `t = 10` (value 0)
survive; `floor(7,3) = 1`, `floor(12,3) = 0`; and below the store's first
remaining key (which is 0, so no unsigned time qualifies) the floor is the
default 0. -/
theorem scenario_optimize_channel3 :
    ((lookupTB (msOptimize 8 exC9) 5).map (fun a => arrGet a 3) = some none ∧
      (lookupTB (msOptimize 8 exC9) 0).map (fun a => arrGet a 3) = some (some 1) ∧
      (lookupTB (msOptimize 8 exC9) 10).map (fun a => arrGet a 3) = some (some 0) ∧
      msGet (msOptimize 8 exC9) 7 3 = 1 ∧
      msGet (msOptimize 8 exC9) 12 3 = 0) ∧
    ∀ t, t < ((msOptimize 8 exC9).map Prod.fst).headD 0 → msGet (msOptimize 8 exC9) t 3 = 0 := by
  refine ⟨by decide, fun t ht => ?_⟩
  have h0 : ((msOptimize 8 exC9).map Prod.fst).headD 0 = 0 := by decide
  exact absurd (h0 ▸ ht) (Nat.not_lt_zero t)

/-- C3: the claim (and the spec scenario) demand at least two emitted functions
for `[(0,1),(1,2),(2,3)]` with cap 2, with the final change represented.  The
code closes the current function when it sees the last sample — before
admitting it — and the fresh bucket holding that last delta is discarded when
the loop ends: only one function is emitted, and evaluating it at time 2
yields 0, not the sampled state 3. -/
theorem dataToFunctions_drops_final_change :
    dataToFunctions [(0, 1), (1, 2), (2, 3)] 2 = [⟨[(1, [0, 1])], 2, 2⟩] ∧
    (dataToFunctions [(0, 1), (1, 2), (2, 3)] 2).length = 1 ∧
    evalFuncs (dataToFunctions [(0, 1), (1, 2), (2, 3)] 2) 2 = 0 := by
  decide

/-- C4: the claim bounds every function's bucket term count by
`max_terms_per_function`.  The counter `i` is reset to 0 when a function is
closed, but the sample admitted in that same iteration is not counted, so
every function after the first can hold `max + 1` terms: with cap 1 and input
`[(0,1),(1,2),(2,3),(3,4)]` the second emitted function has 2 bucket terms. -/
theorem dataToFunctions_exceeds_cap :
    (dataToFunctions [(0, 1), (1, 2), (2, 3), (3, 4)] 1).map termCount = [1, 2] := by
  decide

/-- C2 counterexample: `floor_typed` does not resolve each byte by its own
floor.  At `t = 5` byte 0's own floor is 3 (from `t = 5`) and byte 1's is 2
(from `t = 0`), so per-byte assembly would give `[3, 2]`; the code skips the
`t = 5` snapshot entirely (byte 1 missing there) and returns both bytes from
`t = 0`: `[1, 2]`. -/
theorem floorTyped_not_per_byte_counterexample :
    SortedKeys exC2 ∧ floorTyped exC2 2 0 5 = [1, 2] ∧
    floorTypedPerByte exC2 2 0 5 = [3, 2] ∧
    floorTyped exC2 2 0 5 ≠ floorTypedPerByte exC2 2 0 5 := by
  decide

/-- C5 counterexample: `A AND A` is not `A`.  The operator writes a result
entry only when the combined held value is nonzero, so `A`'s explicit
return-to-0 entry at `t = 5` is dropped (the key survives with an empty
snapshot). -/
theorem and_self_counterexample :
    SortedKeys exC5 ∧
    msBitop 1 (fun x y => x &&& y) exC5 exC5 = [(0, [some 5]), (5, [none])] ∧
    msBitop 1 (fun x y => x &&& y) exC5 exC5 ≠ exC5 := by
  decide

/-- C6 counterexample: the binary operators insert a snapshot at every visited
time key before computing any channel (`entry(time).or_insert_with(new)`), so
`A XOR A` — all of whose channel values are 0 and therefore never written —
leaves a key with an empty snapshot, violating the invariant. -/
theorem xor_self_empty_snapshot_counterexample :
    SortedKeys exC6 ∧ NonEmptySnapshots exC6 ∧
    msBitop 1 (fun x y => x ^^^ y) exC6 exC6 = [(0, [none])] ∧
    ¬ NonEmptySnapshots (msBitop 1 (fun x y => x ^^^ y) exC6 exC6) := by
  decide

/-- C7 counterexample: the `[T; N]`-returning trait `floor` of `MultiSequence`
reads only the single greatest snapshot at or before `t` and defaults the
rest: at `t = 5` it returns `[0, 7]`, although channel 0's own floor is 5
(from `t = 0`). -/
theorem floor_trait_single_snapshot_counterexample :
    SortedKeys exC7 ∧ msFloorVec 2 exC7 5 = [0, 7] ∧
    msGet exC7 5 0 = 5 ∧ msGet exC7 5 1 = 7 ∧
    msFloorVec 2 exC7 5 ≠ [msGet exC7 5 0, msGet exC7 5 1] := by
  decide

/-- C10: a `NoteOn` whose velocity equals `min_velocity` is recorded (its key
is in range, so it is not skipped) with state `false`, because the on-state
test is strictly `vel > min_velocity`. -/
theorem noteOn_at_min_velocity_recorded_off
    (minPitch maxPitch minVelocity : Nat) (acc : List (Nat × Nat × Bool))
    (absTime key : Nat) (h1 : minPitch ≤ key) (h2 : key ≤ maxPitch) :
    recordNoteEvent minPitch maxPitch minVelocity acc absTime (NoteMsg.noteOn key minVelocity)
      = acc ++ [(absTime, key, false)] := by
  unfold recordNoteEvent noteEventOf
  simp only [Nat.lt_irrefl, decide_False]
  rw [if_neg (by omega : ¬(key < minPitch ∨ maxPitch < key))]

/-- C10 witness: key 15 within `[10, 20]`, velocity exactly the threshold 64. -/
theorem noteOn_at_min_velocity_recorded_off_witness :
    recordNoteEvent 10 20 64 [] 0 (NoteMsg.noteOn 15 64) = [(0, 15, false)] :=
  noteOn_at_min_velocity_recorded_off 10 20 64 [] 0 15 (by decide) (by decide)

/-! ## General lemmas about the floor machinery -/

/-- Reading a `(List.range N).map f` vector at `i < N`. -/
theorem getD_map_range {f : Nat → Nat} {N i : Nat} (h : i < N) :
    ((List.range N).map f).getD i 0 = f i := by
  simp [List.getD_eq_getElem?_getD, List.getElem?_map, List.getElem?_range h]

/-- The held value after walking a list of snapshots left to right, overwriting
whenever channel `i` is present (the accumulator form shared by `get_all`
and the carried `last` vectors of the operators). -/
def heldVal (l : TBMS) (i : Nat) : Nat :=
  l.foldl (fun acc p => (arrGet p.2 i).getD acc) 0

/-- Walking forward with overwrites computes exactly the backward
first-present search: the bridge between `get_all` / the carried `last`
values and the floor query `get`. -/
theorem heldVal_eq_findSome (i : Nat) (l : TBMS) :
    heldVal l i = (l.reverse.findSome? (fun p => arrGet p.2 i)).getD 0 := by
  induction l using List.reverseRecOn with
  | nil => simp [heldVal]
  | append_singleton l p ih =>
    rw [heldVal, List.foldl_append, List.reverse_append]
    simp only [List.foldl_cons, List.foldl_nil, List.reverse_cons, List.reverse_nil,
      List.nil_append, List.cons_append, List.findSome?_cons]
    cases harr : arrGet p.2 i with
    | some v => simp
    | none => rw [← heldVal] at *; simpa using ih

/-- `get` is the held value of the filtered prefix. -/
theorem msGet_eq_heldVal (m : TBMS) (t i : Nat) :
    msGet m t i = heldVal (m.filter (fun p => p.1 ≤ t)) i := by
  rw [msGet, msGetOpt, heldVal_eq_findSome]

/-- Channel `i` of the `get_all` accumulator fold over any snapshot list. -/
theorem foldOverwrite_getD (N i : Nat) (h : i < N) (l : TBMS) :
    (l.foldl (fun result p => (List.range N).map fun j => (arrGet p.2 j).getD (result.getD j 0))
        (List.replicate N 0)).getD i 0
      = heldVal l i := by
  induction l using List.reverseRecOn with
  | nil => simp [heldVal, List.getD_eq_getElem?_getD, List.getElem?_replicate, h]
  | append_singleton l p ih =>
    rw [List.foldl_append, heldVal, List.foldl_append]
    simp only [List.foldl_cons, List.foldl_nil]
    rw [getD_map_range h, ih, ← heldVal]

/-- C7 (amended, the part that holds): `TimeByteMultiSequence::get_all` does
answer one independent floor query per channel — channel `i` of the returned
vector is `get(time, i)`: the value at the greatest key `≤ time` where channel
`i` itself is present, or the default 0, regardless of which snapshot is the
greatest overall. -/
theorem get_all_eq_per_channel_floor (N : Nat) (m : TBMS) (t i : Nat) (h : i < N) :
    (msGetAll N m t).getD i 0 = msGet m t i := by
  rw [msGetAll, msGet_eq_heldVal, foldOverwrite_getD N i h]

/-- C7 witness: channel 0 of `get_all` at time 5 equals the per-channel floor
on the concrete two-channel store. -/
theorem get_all_eq_per_channel_floor_witness :
    (msGetAll 2 exC7 5).getD 0 0 = msGet exC7 5 0 :=
  get_all_eq_per_channel_floor 2 exC7 5 0 (by decide)

/-! ## The non-empty-snapshot invariant under `set` -/

/-- Stored snapshots have the static width `N` (`OptionArray<u8, N>`). -/
def ArrLen (N : Nat) (m : TBMS) : Prop := ∀ p ∈ m, p.2.length = N

instance : ∀ N, DecidablePred (ArrLen N) := fun _ m =>
  List.decidableBAll _ m

/-- Setting a slot inside the array's width leaves the snapshot non-empty. -/
theorem arrHasPresent_arrSet {a : Arr} {i : Nat} (v : Nat) (h : i < a.length) :
    arrHasPresent (arrSet a i v) = true := by
  have hlen : i < (a.set i (some v)).length := by simpa using h
  rw [arrHasPresent, arrSet, List.any_eq_true]
  refine ⟨(a.set i (some v)).get ⟨i, hlen⟩, List.get_mem _ _ hlen, ?_⟩
  rw [List.get_eq_getElem, List.getElem_set_self hlen]
  rfl

/-- C6 (amended, the part that holds): `set(time, index, value)` preserves the
invariant that every time key's snapshot has at least one present slot — the
snapshot it touches receives the freshly set slot, all others are unchanged. -/
theorem msSet_preserves_nonempty (N t i v : Nat) (hi : i < N) :
    ∀ m : TBMS, ArrLen N m → NonEmptySnapshots m → NonEmptySnapshots (msSet N m t i v) := by
  intro m
  induction m with
  | nil =>
    intro _ _ p hp
    rw [msSet] at hp
    rcases List.mem_singleton.mp hp with rfl
    exact arrHasPresent_arrSet v (by simpa [arrNew] using hi)
  | cons q rest ih =>
    intro hlen hne p hp
    rw [msSet] at hp
    split at hp
    · rcases List.mem_cons.mp hp with rfl | hp'
      · exact arrHasPresent_arrSet v (by simpa [arrNew] using hi)
      · exact hne p hp'
    · split at hp
      · rcases List.mem_cons.mp hp with rfl | hp'
        · exact arrHasPresent_arrSet v (by rw [hlen q (List.mem_cons_self q rest)]; exact hi)
        · exact hne p (List.mem_cons_of_mem q hp')
      · rcases List.mem_cons.mp hp with rfl | hp'
        · exact hne q (List.mem_cons_self q rest)
        · exact ih (fun r hr => hlen r (List.mem_cons_of_mem q hr))
            (fun r hr => hne r (List.mem_cons_of_mem q hr)) p hp'

/-- Fresh two-channel store for the C6 witness. -/
def exC6b : TBMS := [(2, [some 4, none]), (7, [none, some 1])]

/-- C6 witness: inserting channel 1's value 9 at the new key 3 keeps every
snapshot non-empty. -/
theorem msSet_preserves_nonempty_witness :
    NonEmptySnapshots (msSet 2 exC6b 3 1 9) :=
  msSet_preserves_nonempty 2 3 1 9 (by decide) exC6b (by decide) (by decide)

/-! ## Characterisation of the backward first-match search -/

/-- A reversed `find_map` over a strictly key-sorted list returns the image of
the entry with the greatest key on which the closure fires, and fires on
nothing above it; if it fires nowhere, the search is empty. -/
theorem findSome_rev_greatest {β : Type} (f : Nat × Arr → Option β) :
    ∀ l : List (Nat × Arr), List.Pairwise (fun p q => p.1 < q.1) l →
    (∃ p ∈ l, (∃ b, f p = some b ∧ l.reverse.findSome? f = some b) ∧
        ∀ q ∈ l, p.1 < q.1 → f q = none)
    ∨ ((∀ q ∈ l, f q = none) ∧ l.reverse.findSome? f = none) := by
  intro l
  induction l using List.reverseRecOn with
  | nil => intro _; right; simp
  | append_singleton l p ih =>
    intro hsorted
    rcases List.pairwise_append.mp hsorted with ⟨hl, -, hrel⟩
    rw [List.reverse_append]
    simp only [List.reverse_cons, List.reverse_nil, List.nil_append, List.cons_append,
      List.findSome?_cons]
    cases hfp : f p with
    | some b =>
      left
      refine ⟨p, by simp, ⟨b, hfp, rfl⟩, ?_⟩
      intro q hq hlt
      rcases List.mem_append.mp hq with hq' | hq'
      · exact absurd (hrel q hq' p (by simp)) (Nat.lt_asymm hlt)
      · rcases List.mem_singleton.mp hq' with rfl
        exact absurd hlt (Nat.lt_irrefl _)
    | none =>
      rcases ih hl with ⟨p', hp'mem, ⟨b, hfb, hfind⟩, hmax⟩ | ⟨hall, hnone⟩
      · left
        refine ⟨p', List.mem_append_left _ hp'mem, ⟨b, hfb, hfind⟩, ?_⟩
        intro q hq hlt
        rcases List.mem_append.mp hq with hq' | hq'
        · exact hmax q hq' hlt
        · rcases List.mem_singleton.mp hq' with rfl
          exact hfp
      · right
        refine ⟨?_, hnone⟩
        intro q hq
        rcases List.mem_append.mp hq with hq' | hq'
        · exact hall q hq'
        · rcases List.mem_singleton.mp hq' with rfl
          exact hfp

/-- C2 (amended): `floor_typed(time, index)` assembles all of the element's
bytes from one single snapshot — the one at the greatest key `≤ time` whose
snapshot holds every constituent byte — and falls back to the default value
when no snapshot `≤ time` holds them all.  In particular the bytes are never
mixed across historical keys. -/
theorem floorTyped_single_snapshot (m : TBMS) (hm : SortedKeys m) (s k t : Nat) :
    (∃ p ∈ m, p.1 ≤ t ∧
        (∃ bs, collectBytes p.2 (k * s) s = some bs ∧ floorTyped m s k t = bs) ∧
        ∀ q ∈ m, q.1 ≤ t → p.1 < q.1 → collectBytes q.2 (k * s) s = none)
    ∨ ((∀ q ∈ m, q.1 ≤ t → collectBytes q.2 (k * s) s = none) ∧
        floorTyped m s k t = List.replicate s 0) := by
  have hl : List.Pairwise (fun p q => p.1 < q.1) (m.filter (fun p => p.1 ≤ t)) :=
    List.Pairwise.sublist (List.filter_sublist m) hm
  rcases findSome_rev_greatest (fun p => collectBytes p.2 (k * s) s) _ hl with
    ⟨p, hpmem, ⟨b, hfb, hfind⟩, hmax⟩ | ⟨hall, hnone⟩
  · left
    have hp := List.mem_filter.mp hpmem
    refine ⟨p, hp.1, by simpa using hp.2, ⟨b, hfb, ?_⟩, ?_⟩
    · rw [floorTyped, floorTypedOpt, hfind, Option.getD_some]
    · intro q hq hqt hlt
      exact hmax q (List.mem_filter.mpr ⟨hq, by simpa using hqt⟩) hlt
  · right
    refine ⟨fun q hq hqt => hall q (List.mem_filter.mpr ⟨hq, by simpa using hqt⟩), ?_⟩
    rw [floorTyped, floorTypedOpt, hnone, Option.getD_none]

/-- C2 witness: the characterisation applied to the concrete store of the
counterexample. -/
theorem floorTyped_single_snapshot_witness :
    (∃ p ∈ exC2, p.1 ≤ 5 ∧
        (∃ bs, collectBytes p.2 (0 * 2) 2 = some bs ∧ floorTyped exC2 2 0 5 = bs) ∧
        ∀ q ∈ exC2, q.1 ≤ 5 → p.1 < q.1 → collectBytes q.2 (0 * 2) 2 = none)
    ∨ ((∀ q ∈ exC2, q.1 ≤ 5 → collectBytes q.2 (0 * 2) 2 = none) ∧
        floorTyped exC2 2 0 5 = List.replicate 2 0) :=
  floorTyped_single_snapshot exC2 (by decide) 2 0 5

/-! ## `A AND A`: key-list and held-value lemmas -/

/-- Inserting below every element just prepends. -/
theorem insertKey_head_lt {x : Nat} {l : List Nat} (h : ∀ y ∈ l, x < y) :
    insertKey x l = x :: l := by
  cases l with
  | nil => rfl
  | cons y ys => rw [insertKey, if_pos (h y (List.mem_cons_self y ys))]

/-- Inserting an element already present in a strictly sorted list is a no-op. -/
theorem insertKey_mem_sorted {x : Nat} : ∀ {l : List Nat},
    List.Pairwise (fun a b => a < b) l → x ∈ l → insertKey x l = l := by
  intro l
  induction l with
  | nil => intro _ h; exact absurd h (List.not_mem_nil x)
  | cons y ys ih =>
    intro hs hx
    rw [List.pairwise_cons] at hs
    rw [insertKey]
    rcases List.mem_cons.mp hx with rfl | hx'
    · rw [if_neg (Nat.lt_irrefl x), if_pos rfl]
    · have hyx : y < x := hs.1 x hx'
      rw [if_neg (Nat.lt_asymm hyx), if_neg (by omega), ih hs.2 hx']

/-- Sort-and-dedup of an already strictly sorted list is the identity. -/
theorem sortDedup_sorted_id : ∀ (l : List Nat), List.Pairwise (fun a b => a < b) l →
    sortDedupKeys l = l := by
  intro l
  induction l with
  | nil => intro _; rfl
  | cons y ys ih =>
    intro hs
    rw [List.pairwise_cons] at hs
    show insertKey y (sortDedupKeys ys) = y :: ys
    rw [ih hs.2]
    exact insertKey_head_lt hs.1

/-- Folding insertions of already-present elements changes nothing. -/
theorem foldr_insertKey_subset : ∀ (l ks : List Nat),
    List.Pairwise (fun a b => a < b) ks → (∀ x ∈ l, x ∈ ks) →
    l.foldr insertKey ks = ks := by
  intro l
  induction l with
  | nil => intro ks _ _; rfl
  | cons x xs ih =>
    intro ks hs hsub
    rw [List.foldr_cons, ih ks hs (fun y hy => hsub y (List.mem_cons_of_mem x hy))]
    exact insertKey_mem_sorted hs (hsub x (List.mem_cons_self x xs))

/-- The `all_times` of `A op A`: sorting and deduplicating the doubled key list
of a store gives back its (already strictly sorted) key list. -/
theorem sortDedup_doubled {ks : List Nat} (hs : List.Pairwise (fun a b => a < b) ks) :
    sortDedupKeys (ks ++ ks) = ks := by
  rw [sortDedupKeys, List.foldr_append]
  rw [show List.foldr insertKey [] ks = sortDedupKeys ks from rfl, sortDedup_sorted_id ks hs]
  exact foldr_insertKey_subset ks ks hs (fun x hx => hx)

/-- The carried `last` vectors of the operator loop. -/
def heldVals (N : Nat) (l : TBMS) : List Nat := (List.range N).map (fun i => heldVal l i)

/-- One more snapshot extends the held value by one overwrite step. -/
theorem heldVal_append_single (l : TBMS) (p : Nat × Arr) (i : Nat) :
    heldVal (l ++ [p]) i = (arrGet p.2 i).getD (heldVal l i) := by
  rw [heldVal, List.foldl_append, List.foldl_cons, List.foldl_nil, heldVal]

/-- `BTreeMap::get` at the key of a decomposed sorted store. -/
theorem lookupTB_append_cons {a₁ a₂ : TBMS} {p : Nat × Arr}
    (hs : SortedKeys (a₁ ++ p :: a₂)) : lookupTB (a₁ ++ p :: a₂) p.1 = some p.2 := by
  rw [lookupTB, List.find?_append]
  have h1 : (a₁.find? (fun q => q.1 == p.1)) = none := by
    rw [List.find?_eq_none]
    intro q hq
    have hlt : q.1 < p.1 :=
      (List.pairwise_append.mp hs).2.2 q hq p (List.mem_cons_self p a₂)
    simp [Nat.ne_of_lt hlt]
  rw [h1, Option.none_or, List.find?_cons_of_pos _ (by simp)]
  rfl

/-- `range(..=t)` at the key of a decomposed sorted store is the prefix through
that key. -/
theorem filter_le_of_sorted {a₁ a₂ : TBMS} {p : Nat × Arr}
    (hs : SortedKeys (a₁ ++ p :: a₂)) :
    (a₁ ++ p :: a₂).filter (fun q => q.1 ≤ p.1) = a₁ ++ [p] := by
  rcases List.pairwise_append.mp hs with ⟨-, h2, hrel⟩
  rw [List.pairwise_cons] at h2
  rw [List.filter_append]
  have ha : a₁.filter (fun q => decide (q.1 ≤ p.1)) = a₁ :=
    List.filter_eq_self.mpr (fun q hq => by
      simpa using Nat.le_of_lt (hrel q hq p (List.mem_cons_self p a₂)))
  have hb : (p :: a₂).filter (fun q => decide (q.1 ≤ p.1)) = [p] := by
    rw [List.filter_cons, if_pos (by simp)]
    rw [List.filter_eq_nil_iff.mpr (fun q hq => by simpa using h2.1 q hq)]
  rw [ha, hb]

/-- Functions that agree on the list's members fold identically. -/
theorem foldl_congr_mem {α β : Type} {f g : β → α → β} : ∀ {l : List α} {b : β},
    (∀ a ∈ l, ∀ acc, f acc a = g acc a) → l.foldl f b = l.foldl g b := by
  intro l
  induction l with
  | nil => intro b _; rfl
  | cons x xs ih =>
    intro b h
    rw [List.foldl_cons, List.foldl_cons, h x (List.mem_cons_self x xs) b]
    exact ih (fun a ha acc => h a (List.mem_cons_of_mem x ha) acc)

/-- The operand value vector at a key of the store: explicit slot if present,
else the carried held value — i.e. the held values through that key. -/
theorem valsOf_lookup (N : Nat) {a₁ a₂ : TBMS} {p : Nat × Arr}
    (hm : SortedKeys (a₁ ++ p :: a₂)) :
    valsOf N (lookupTB (a₁ ++ p :: a₂) p.1) (heldVals N a₁) = heldVals N (a₁ ++ [p]) := by
  rw [valsOf, lookupTB_append_cons hm, heldVals, heldVals]
  apply List.map_congr_left
  intro i hi
  have hiN : i < N := List.mem_range.mp hi
  rw [Option.some_bind, heldVal_append_single]
  rw [show ((List.range N).map (fun j => heldVal a₁ j)).getD i 0 = heldVal a₁ i from
    getD_map_range hiN]

/-- The held values through a key of a sorted store are its per-channel floors
at that key. -/
theorem heldVal_eq_msGet {a₁ a₂ : TBMS} {p : Nat × Arr}
    (hm : SortedKeys (a₁ ++ p :: a₂)) (i : Nat) :
    heldVal (a₁ ++ [p]) i = msGet (a₁ ++ p :: a₂) p.1 i := by
  rw [msGet_eq_heldVal, filter_le_of_sorted hm]

/-- C5 spec side: what `A AND A` actually produces — the same time keys as
`A`, and at each key a snapshot holding, for every channel whose held
(per-channel floor) value at that key is nonzero, exactly that held value. -/
def msAndSelf (N : Nat) (m : TBMS) : TBMS :=
  m.map (fun p => (p.1,
    (List.range N).foldl
      (fun arr i => if msGet m p.1 i ≠ 0 then arrSet arr i (msGet m p.1 i) else arr)
      (arrNew N)))

/-- Invariant induction for the operator loop applied to `(A, A)`: walking the
remaining keys with the held values of the processed prefix carried as the
`last` vectors produces exactly the `msAndSelf` entries. -/
theorem bitopGo_and_self (N : Nat) (m : TBMS) (hm : SortedKeys m) :
    ∀ (a₂ a₁ : TBMS), m = a₁ ++ a₂ →
    msBitopGo N (fun x y => x &&& y) m m (heldVals N a₁) (heldVals N a₁) (a₂.map Prod.fst)
      = a₂.map (fun p => (p.1,
          (List.range N).foldl
            (fun arr i => if msGet m p.1 i ≠ 0 then arrSet arr i (msGet m p.1 i) else arr)
            (arrNew N))) := by
  intro a₂
  induction a₂ with
  | nil => intro a₁ _; rfl
  | cons p a₂' ih =>
    intro a₁ heq
    rw [List.map_cons, List.map_cons, msBitopGo]
    have hvals : valsOf N (lookupTB m p.1) (heldVals N a₁) = heldVals N (a₁ ++ [p]) := by
      rw [heq]; exact valsOf_lookup N (heq ▸ hm)
    rw [hvals]
    have hgetD : ∀ i, i < N → (heldVals N (a₁ ++ [p])).getD i 0 = msGet m p.1 i := by
      intro i hiN
      rw [heldVals]
      rw [show ((List.range N).map (fun j => heldVal (a₁ ++ [p]) j)).getD i 0
          = heldVal (a₁ ++ [p]) i from getD_map_range hiN]
      rw [heq]; exact heldVal_eq_msGet (heq ▸ hm) i
    refine congrArg₂ (fun x y => x :: y) ?_ ?_
    · refine congrArg (fun a => (p.1, a)) ?_
      apply foldl_congr_mem
      intro i hi acc
      rw [hgetD i (List.mem_range.mp hi), Nat.and_self]
    · have heq' : m = (a₁ ++ [p]) ++ a₂' := by
        rw [heq, List.append_assoc]; rfl
      exact ih (a₁ ++ [p]) heq'

/-- C5 (amended): `A AND A` is not `A` in general; what holds for every sorted
store is the exact characterisation — the result has `A`'s time keys, and at
each key channel `i` carries `A`'s held (floor) value when that value is
nonzero and is absent otherwise.  (Explicit zero entries are dropped and held
values are materialised at keys where `A` has no explicit entry, which is why
`A AND A == A` fails.) -/
theorem and_self_characterization (N : Nat) (m : TBMS) (hm : SortedKeys m) :
    msBitop N (fun x y => x &&& y) m m = msAndSelf N m := by
  rw [msBitop, msAndSelf]
  have hkeys : sortDedupKeys (m.map Prod.fst ++ m.map Prod.fst) = m.map Prod.fst :=
    sortDedup_doubled (List.pairwise_map.mpr hm)
  rw [hkeys]
  have h0 : (List.replicate N 0 : List Nat) = heldVals N [] := by
    rw [heldVals]
    rw [show (fun i => heldVal [] i) = (fun _ : Nat => (0 : Nat)) from rfl]
    rw [List.map_const', List.length_range]
  rw [h0]
  exact bitopGo_and_self N m hm m [] rfl

/-- C5 witness: the characterisation at the concrete store of the
counterexample. -/
theorem and_self_characterization_witness :
    msBitop 1 (fun x y => x &&& y) exC5 exC5 = msAndSelf 1 exC5 :=
  and_self_characterization 1 exC5 (by decide)

/-! ## Graph builder: the 16-bit index bound -/

/-- A successful checked push appends exactly one block and returns its index,
which passed the `u16` conversion. -/
theorem pushChecked_ok {blocks : List Block} {b : Block} {blocks' : List Block} {idx : Nat}
    (h : pushChecked blocks b = Except.ok (blocks', idx)) :
    blocks' = blocks ++ [b] ∧ idx = blocks.length ∧ idx < 65536 := by
  rw [pushChecked, tryIntoU16] at h
  by_cases hc : (blocks ++ [b]).length - 1 < 65536
  · rw [if_pos hc] at h
    dsimp only at h
    simp only [Except.ok.injEq, Prod.mk.injEq] at h
    refine ⟨h.1.symm, ?_, ?_⟩
    · rw [← h.2]; simp
    · rw [← h.2]; simpa using hc
  · rw [if_neg hc] at h
    exact absurd h (by simp)

/-- A checked push out of a sound block list yields a sound block list and an
in-range index, provided the new block's own targets are in range. -/
theorem good_pushChecked {blocks : List Block} {b : Block} {blocks' : List Block} {idx : Nat}
    (hg : GoodBlocks blocks) (hb : ∀ c ∈ b.connections, c < 65536)
    (h : pushChecked blocks b = Except.ok (blocks', idx)) :
    GoodBlocks blocks' ∧ idx < 65536 := by
  obtain ⟨heq, hidx, hlt⟩ := pushChecked_ok h
  refine ⟨⟨?_, ?_⟩, hlt⟩
  · rw [heq, List.length_append, List.length_singleton]
    omega
  · intro bb hbb c hc
    rcases List.mem_append.mp (heq ▸ hbb) with h1 | h1
    · exact hg.2 bb h1 c hc
    · rcases List.mem_singleton.mp h1 with rfl
      exact hb c hc

/-- Appending an in-range edge target to an existing block keeps soundness. -/
theorem good_pushConn {blocks : List Block} {j target : Nat}
    (hg : GoodBlocks blocks) (ht : target < 65536) :
    GoodBlocks (pushConn blocks j target) := by
  rw [pushConn]
  cases hj : blocks.get? j with
  | none => exact hg
  | some b =>
    constructor
    · rw [List.length_set]; exact hg.1
    · intro bb hbb c hc
      rcases List.mem_or_eq_of_mem_set hbb with h1 | rfl
      · exact hg.2 bb h1 c hc
      · rcases List.mem_append.mp hc with h2 | h2
        · exact hg.2 b (List.get?_mem hj) c h2
        · rcases List.mem_singleton.mp h2 with rfl
          exact ht

/-- The tone-generator loop preserves soundness. -/
theorem addToneGens_good (ukc decIdx cBase : Nat) :
    ∀ (ns : List Nat) (blocks blocks' : List Block), GoodBlocks blocks →
    addToneGens ukc decIdx cBase ns blocks = Except.ok blocks' → GoodBlocks blocks' := by
  intro ns
  induction ns with
  | nil =>
    intro blocks blocks' hg h
    rw [addToneGens] at h
    exact (Except.ok.inj h) ▸ hg
  | cons n ns ih =>
    intro blocks blocks' hg h
    rw [addToneGens] at h
    split at h
    · cases hp : pushChecked blocks ⟨125, []⟩ with
      | error e => rw [hp] at h; exact absurd h (by simp)
      | ok pr =>
        obtain ⟨bl1, tg⟩ := pr
        rw [hp] at h
        obtain ⟨hg1, htg⟩ := good_pushChecked hg (by simp) hp
        exact ih _ _ (good_pushConn hg1 htg) h
    · exact ih _ _ hg h

/-- The data-block loop preserves soundness when its wiring target is in
range. -/
theorem addDataBlocks_good {target : Nat} (ht : target < 65536) :
    ∀ (fs : List EncFunc) (blocks blocks' : List Block), GoodBlocks blocks →
    addDataBlocks target fs blocks = Except.ok blocks' → GoodBlocks blocks' := by
  intro fs
  induction fs with
  | nil =>
    intro blocks blocks' hg h
    rw [addDataBlocks] at h
    exact (Except.ok.inj h) ▸ hg
  | cons f fs ih =>
    intro blocks blocks' hg h
    rw [addDataBlocks] at h
    cases hp : pushChecked blocks ⟨129, [target]⟩ with
    | error e => rw [hp] at h; exact absurd h (by simp)
    | ok pr =>
      obtain ⟨bl1, idx⟩ := pr
      rw [hp] at h
      obtain ⟨hg1, hidx⟩ := good_pushChecked hg
        (fun c hc => by rcases List.mem_singleton.mp hc with rfl; exact ht) hp
      exact ih _ _ (good_pushConn hg1 hidx) h

/-- One channel's block allocation preserves soundness. -/
theorem addChannel_good {npv ukc maxEv : Nat} {changes : List (Nat × Nat)} {c : Nat}
    {blocks blocks' : List Block} (hg : GoodBlocks blocks)
    (h : addChannel npv ukc maxEv changes c blocks = Except.ok blocks') :
    GoodBlocks blocks' := by
  rw [addChannel] at h
  cases h1 : pushChecked blocks ⟨129, []⟩ with
  | error e => rw [h1] at h; exact absurd h (by simp)
  | ok pr1 =>
    obtain ⟨bl1, decIdx⟩ := pr1
    rw [h1] at h
    dsimp only at h
    obtain ⟨hg1, hdec⟩ := good_pushChecked hg (by simp) h1
    cases h2 : pushChecked bl1 ⟨78, [decIdx]⟩ with
    | error e => rw [h2] at h; exact absurd h (by simp)
    | ok pr2 =>
      obtain ⟨bl2, diIdx⟩ := pr2
      rw [h2] at h
      dsimp only at h
      obtain ⟨hg2, hdi⟩ := good_pushChecked hg1
        (fun x hx => by rcases List.mem_singleton.mp hx with rfl; exact hdec) h2
      cases h3 : addToneGens ukc decIdx (c * npv) (List.range npv) bl2 with
      | error e => rw [h3] at h; exact absurd h (by simp)
      | ok bl3 =>
        rw [h3] at h
        exact addDataBlocks_good hdi _ _ _ (addToneGens_good _ _ _ _ _ _ hg2 h3) h

/-- The channel loop preserves soundness. -/
theorem addChannels_good {npv ukc maxEv : Nat} {dataChanges : List (List (Nat × Nat))} :
    ∀ (cs : List Nat) (blocks blocks' : List Block), GoodBlocks blocks →
    addChannels npv ukc maxEv dataChanges cs blocks = Except.ok blocks' →
    GoodBlocks blocks' := by
  intro cs
  induction cs with
  | nil =>
    intro blocks blocks' hg h
    rw [addChannels] at h
    exact (Except.ok.inj h) ▸ hg
  | cons c cs ih =>
    intro blocks blocks' hg h
    rw [addChannels] at h
    cases h1 : addChannel npv ukc maxEv (dataChanges.getD c []) c blocks with
    | error e => rw [h1] at h; exact absurd h (by simp)
    | ok bl1 =>
      rw [h1] at h
      exact ih _ _ (addChannel_good hg h1) h

/-- C8: every graph the builder actually emits stays inside the 16-bit index
space — at most 65536 blocks, and every edge target below 65536; an index that
would not fit makes the whole construction return the conversion error
instead, so indices are never wrapped. -/
theorem generateBlocks_index_bound
    (npv ukc maxEv : Nat) (dataChanges : List (List (Nat × Nat)))
    (tempoEvents : List (Nat × Nat)) (blocks : List Block)
    (h : generateBlocks npv ukc maxEv dataChanges tempoEvents = Except.ok blocks) :
    GoodBlocks blocks := by
  rw [generateBlocks] at h
  cases h1 : addChannels npv ukc maxEv dataChanges
      (List.range ((ukc - 1) / npv + 1)) prologue with
  | error e => rw [h1] at h; exact absurd h (by simp)
  | ok bl =>
    rw [h1] at h
    have hgp : GoodBlocks prologue := ⟨by decide, by decide⟩
    exact addDataBlocks_good (by omega) _ _ _ (addChannels_good _ _ _ hgp h1) h

/-- C8 witness: a one-channel instance with no used keys; the builder succeeds
with the prologue, one decoder and its input OR block, and the bound holds. -/
theorem generateBlocks_index_bound_witness :
    GoodBlocks (prologue ++ [⟨129, []⟩, ⟨78, [5]⟩]) :=
  generateBlocks_index_bound 1 0 2 [] [] (prologue ++ [⟨129, []⟩, ⟨78, [5]⟩]) (by rfl)
